import Mathlib

/-!
# Verification of the `mpart` multipart/form-data library

A shallow embedding of the server-side multipart parsing code
(`src/lib.rs`, `src/server/mod.rs`, `src/server/hyper.rs`,
`src/server/tiny_http.rs`).  Byte strings are modelled as `List Nat`.
The core scanning modules (`boundary.rs`, `field.rs`) and the client-side
encoder are not present in the source tree; the definitions for those parts
are modelled from the specification (they carry a doc comment saying so).
-/

namespace Mpart

/-! ## Generic byte-list scanning primitives -/

/-- Consume the literal `p` from the front of `s`, returning the remainder. -/
def expects (p s : List Nat) : Option (List Nat) :=
  if p <+: s then some (s.drop p.length) else none

/-- Scan `s` for the first occurrence of the delimiter `d`; return the bytes
before the occurrence together with the bytes after it. -/
def readUntil (d : List Nat) : List Nat → Option (List Nat × List Nat)
  | [] => none
  | a :: s =>
    if d <+: a :: s then some ([], (a :: s).drop d.length)
    else
      match readUntil d s with
      | some p => some (a :: p.1, p.2)
      | none => none

/-- Index of the first occurrence of `n` in the haystack (Rust `str::find`). -/
def findSub (n : List Nat) : List Nat → Option Nat
  | [] => if n = [] then some 0 else none
  | a :: s => if n <+: a :: s then some 0 else (findSub n s).map (· + 1)

theorem expects_append (p y : List Nat) : expects p (p ++ y) = some y := by
  rw [expects, if_pos (List.prefix_append p y), List.drop_left]

theorem expects_of_not (p s : List Nat) (h : ¬ p <+: s) : expects p s = none := by
  rw [expects, if_neg h]

/-- A proper occurrence of `d` strictly inside `x ++ d ++ y` (starting in `x`)
already shows up in `x ++ d.dropLast`. -/
theorem straddle_of_inner (d x y : List Nat) (hd : d ≠ []) (hx : x ≠ [])
    (h : d <+: x ++ d ++ y) : d <:+: x ++ d.dropLast := by
  have hlast := List.dropLast_append_getLast hd
  have hsplit : x ++ d ++ y = (x ++ d.dropLast) ++ ([d.getLast hd] ++ y) := by
    calc x ++ d ++ y = x ++ (d.dropLast ++ [d.getLast hd]) ++ y := by rw [hlast]
    _ = (x ++ d.dropLast) ++ ([d.getLast hd] ++ y) := by simp [List.append_assoc]
  have hxlen : 1 ≤ x.length := by
    cases x with
    | nil => exact absurd rfl hx
    | cons a t => simp
  have hdlen : 1 ≤ d.length := by
    cases d with
    | nil => exact absurd rfl hd
    | cons a t => simp
  have htake : d = (x ++ d ++ y).take d.length := by
    exact List.prefix_iff_eq_take.mp h
  have hlen2 : (x ++ d.dropLast).length = x.length + d.length - 1 := by
    simp [List.length_dropLast]
    omega
  have htake2 : (x ++ d.dropLast).take d.length = (x ++ d ++ y).take d.length := by
    have : x ++ d.dropLast = (x ++ d ++ y).take (x.length + d.length - 1) := by
      rw [hsplit]
      rw [← hlen2, List.take_left]
    rw [this, List.take_take]
    congr 1
    omega
  have hpre : d <+: x ++ d.dropLast := by
    rw [List.prefix_iff_eq_take]
    rw [htake2, ← htake]
  exact hpre.isInfix

theorem infix_of_tail {d : List Nat} {a : Nat} {t : List Nat}
    (h : d <:+: t) : d <:+: a :: t :=
  h.trans (List.suffix_cons a t).isInfix

/-- The central splitting lemma: `readUntil` finds exactly the marked
occurrence when no earlier (possibly straddling) occurrence exists. -/
theorem readUntil_append (d x y : List Nat) (hd : d ≠ [])
    (hx : ¬ d <:+: x ++ d.dropLast) :
    readUntil d (x ++ d ++ y) = some (x, y) := by
  induction x with
  | nil =>
    obtain ⟨a, t, rfl⟩ : ∃ a t, d = a :: t := by
      cases d with
      | nil => exact absurd rfl hd
      | cons a t => exact ⟨a, t, rfl⟩
    simp only [List.nil_append, List.cons_append]
    rw [readUntil]
    rw [if_pos (by rw [show a :: (t ++ y) = (a :: t) ++ y from rfl]
                   exact List.prefix_append _ _)]
    rw [show a :: (t ++ y) = (a :: t) ++ y from rfl, List.drop_left]
  | cons a x' ih =>
    have hnp : ¬ d <+: (a :: x') ++ d ++ y := by
      intro hp
      exact hx (straddle_of_inner d (a :: x') y hd (by simp) hp)
    have hx' : ¬ d <:+: x' ++ d.dropLast := by
      intro hinf
      exact hx (infix_of_tail hinf)
    show readUntil d (a :: (x' ++ d ++ y)) = some (a :: x', y)
    rw [readUntil]
    rw [if_neg (by simpa using hnp)]
    rw [ih hx']

/-- When the delimiter does not occur at all, `readUntil` reports failure. -/
theorem readUntil_none (d : List Nat) (s : List Nat) (h : ¬ d <:+: s) :
    readUntil d s = none := by
  induction s with
  | nil => rfl
  | cons a t ih =>
    rw [readUntil]
    rw [if_neg (fun hp => h hp.isInfix)]
    rw [ih (fun hinf => h (infix_of_tail hinf))]

theorem findSub_append (n x y : List Nat) (hn : n ≠ [])
    (hx : ¬ n <:+: x ++ n.dropLast) :
    findSub n (x ++ n ++ y) = some x.length := by
  induction x with
  | nil =>
    obtain ⟨a, t, rfl⟩ : ∃ a t, n = a :: t := by
      cases n with
      | nil => exact absurd rfl hn
      | cons a t => exact ⟨a, t, rfl⟩
    simp only [List.nil_append, List.cons_append]
    rw [findSub, if_pos (by rw [show a :: (t ++ y) = (a :: t) ++ y from rfl]
                            exact List.prefix_append _ _)]
    rfl
  | cons a x' ih =>
    have hnp : ¬ n <+: (a :: x') ++ n ++ y := by
      intro hp
      exact hx (straddle_of_inner n (a :: x') y hn (by simp) hp)
    have hx' : ¬ n <:+: x' ++ n.dropLast := by
      intro hinf
      exact hx (infix_of_tail hinf)
    show findSub n (a :: (x' ++ n ++ y)) = some (x'.length + 1)
    rw [findSub, if_neg (by simpa using hnp), ih hx']
    simp [List.length_cons]

theorem findSub_none (n s : List Nat) (h : ¬ n <:+: s) : findSub n s = none := by
  induction s with
  | nil =>
    have hne : n ≠ [] := by
      intro he
      subst he
      exact h (List.nil_infix : ([] : List Nat) <:+: [])
    rw [findSub, if_neg hne]
  | cons a t ih =>
    rw [findSub, if_neg (fun hp => h hp.isInfix)]
    rw [ih (fun hinf => h (infix_of_tail hinf))]
    rfl

/-- Membership as a single-element infix. -/
theorem singleton_infix_iff_mem (a : Nat) (l : List Nat) :
    [a] <:+: l ↔ a ∈ l := by
  constructor
  · rintro ⟨s, t, rfl⟩
    simp
  · intro h
    obtain ⟨s, t, rfl⟩ := List.append_of_mem h
    exact ⟨s, t, by simp⟩

/-- The straddle-freedom side condition used throughout: the delimiter `d`
does not occur in `x` nor straddling `x`'s end. -/
def straddleFree (d x : List Nat) : Prop := ¬ d <:+: (x ++ d.dropLast)

instance (d x : List Nat) : Decidable (straddleFree d x) := by
  unfold straddleFree
  infer_instance

theorem straddleFree_drop (d x : List Nat) (k : Nat)
    (h : straddleFree d x) : straddleFree d (x.drop k) := by
  intro hinf
  apply h
  have hsuf : x.drop k ++ d.dropLast <:+ x ++ d.dropLast := by
    refine ⟨x.take k, ?_⟩
    rw [← List.append_assoc, List.take_append_drop]
  exact hinf.trans hsuf.isInfix

theorem straddleFree_nil (d : List Nat) (hd : d ≠ []) : straddleFree d [] := by
  intro hinf
  have hle := hinf.length_le
  have : d.dropLast.length = d.length - 1 := List.length_dropLast d
  have hdlen : 1 ≤ d.length := by
    cases d with
    | nil => exact absurd rfl hd
    | cons a t => simp
  simp at hle
  omega

/-! ## Byte constants -/

/-- Bytes of a string literal, for writing concrete byte lists. -/
def s2b (s : String) : List Nat := s.toList.map Char.toNat

def CR : Nat := 13
def LF : Nat := 10
def QU : Nat := 34
def SEMI : Nat := 59

/-- Carriage return / line feed pair. -/
def crlf : List Nat := [CR, LF]

/-- Two hyphens, `--`. -/
def dd : List Nat := [45, 45]

def quoteB : List Nat := [QU]

/-! ## The `HttpRequest` adapters

`src/server/hyper.rs` implements `HttpRequest` for `hyper::server::Request`
taken by value and by mutable reference; `src/server/tiny_http.rs` implements
it for `&mut tiny_http::Request`.  The host library types (`hyper::Method`,
`hyper::mime::Mime`, tiny_http headers) are modelled structurally. -/

inductive Method
  | options | get | post | put | delete | head | trace | connect
  deriving DecidableEq

inductive TopLevel
  | text | multipart | application | otherTop
  deriving DecidableEq

inductive SubLevel
  | plain | formData | otherSub
  deriving DecidableEq

inductive MimeAttr
  | boundary | charset | otherAttr
  deriving DecidableEq

inductive MimeValue
  | ext (v : List Nat)
  | utf8
  deriving DecidableEq

structure MimeT where
  top : TopLevel
  sub : SubLevel
  params : List (MimeAttr × MimeValue)
  deriving DecidableEq

/-- A hyper request: its method, and the parsed `Content-Type` header if
present (`headers.get::<ContentType>()`). -/
structure HyperRequest where
  method : Method
  contentType : Option MimeT
  deriving DecidableEq

/-- The `multipart_boundary` of `impl HttpRequest for HyperRequest` (by value),
`src/server/hyper.rs` lines 86-105. -/
def hyper_multipart_boundary (r : HyperRequest) : Option (List Nat) :=
  if r.method ≠ Method.post then none
  else
    r.contentType.bind fun mime =>
      match mime.top, mime.sub with
      | TopLevel.multipart, SubLevel.formData =>
        (mime.params.find? fun p =>
            match p.1 with
            | MimeAttr.boundary => true
            | _ => false).bind fun p =>
          match p.2 with
          | MimeValue.ext v => some v
          | MimeValue.utf8 => none
      | _, _ => none

/-- The `multipart_boundary` of `impl HttpRequest for &mut HyperRequest`,
`src/server/hyper.rs` lines 115-134; its body is a verbatim copy of the
by-value implementation. -/
def hyper_multipart_boundary_mut (r : HyperRequest) : Option (List Nat) :=
  if r.method ≠ Method.post then none
  else
    r.contentType.bind fun mime =>
      match mime.top, mime.sub with
      | TopLevel.multipart, SubLevel.formData =>
        (mime.params.find? fun p =>
            match p.1 with
            | MimeAttr.boundary => true
            | _ => false).bind fun p =>
          match p.2 with
          | MimeValue.ext v => some v
          | MimeValue.utf8 => none
      | _, _ => none

/-- ASCII lowering of one byte, as `tiny_http`'s case-insensitive header
field comparison (`header.field.equiv("Content-Type")`) performs. -/
def lowerByte (b : Nat) : Nat := if 65 ≤ b ∧ b ≤ 90 then b + 32 else b

/-- Case-insensitive byte-string equality. -/
def eqCI (a b : List Nat) : Bool := a.map lowerByte == b.map lowerByte

structure TinyHeader where
  field : List Nat
  value : List Nat
  deriving DecidableEq

/-- A tiny_http request: its method and raw header list. -/
structure TinyRequest where
  method : Method
  headers : List TinyHeader
  deriving DecidableEq

def boundaryEq : List Nat := s2b "boundary="

def contentTypeName : List Nat := s2b "Content-Type"

/-- The `multipart_boundary` of `impl HttpRequest for &mut TinyHttpRequest`,
`src/server/tiny_http.rs` lines 10-25: find the `Content-Type` header
(case-insensitively), find `boundary=` in its value, and slice from after it
up to the next `;` or the end of the value.  The request method is never
consulted. -/
def tiny_multipart_boundary (r : TinyRequest) : Option (List Nat) :=
  (r.headers.find? fun h => eqCI h.field contentTypeName).bind fun h =>
    let ct := h.value
    (findSub boundaryEq ct).bind fun i =>
      let start := i + boundaryEq.length
      let stop :=
        match findSub [SEMI] (ct.drop start) with
        | some j => start + j
        | none => ct.length
      some ((ct.take stop).drop start)

/-! ## The multipart parsing core

`src/server/mod.rs` defines `Multipart<R>` over a `BoundaryReader<R>` and the
entry state machine, but `boundary.rs` and `field.rs` themselves are not in
the source tree.  The scanner and the per-part header parsing below are
modelled from the specification (spec §3, §4.1, §4.2, §4.3, §6). -/

/-- Modelled from the spec: the boundary delimiter searched for between
parts.  `boundary.rs` is absent; per spec §3 the boundary is the token
prefixed with `--`, and per spec §4.1 a CRLF immediately preceding the
boundary belongs to the delimiter. -/
def delim (B : List Nat) : List Nat := crlf ++ dd ++ B

/-- Phase of the entry state machine (spec §4.3): before the first boundary,
inside the stream of parts, or after the terminal marker. -/
inductive Phase
  | start | inBody | ended
  deriving DecidableEq

/-- The server-side `Multipart` parser state: the caller-supplied boundary
token, the unread bytes of the body, and the machine phase. -/
structure Multipart where
  boundary : List Nat
  input : List Nat
  phase : Phase
  deriving DecidableEq

/-- `Multipart::with_body` (`src/server/mod.rs` lines 61-69): wrap a body
and a boundary token into a parser positioned at the stream start. -/
def with_body (body : List Nat) (boundary : List Nat) : Multipart :=
  ⟨boundary, body, Phase.start⟩

/-- An abstract request implementing the `HttpRequest` capability: the result
of its `multipart_boundary()` and the body `body()` would yield. -/
structure ReqModel where
  mb : Option (List Nat)
  bodyBytes : List Nat
  deriving DecidableEq

/-- `Multipart::from_request` (`src/server/mod.rs` lines 40-48): if the
request has a multipart boundary, wrap the body; otherwise hand back the
original request. -/
def from_request (req : ReqModel) : Except ReqModel Multipart :=
  match req.mb with
  | some boundary => Except.ok (with_body req.bodyBytes boundary)
  | none => Except.error req

/-- Modelled from the spec: after the boundary marker itself, consume the
trailing `--` terminator (no part follows) or the trailing CRLF (a part
follows); spec §4.1 `consume_boundary`. -/
def boundaryTail (s : List Nat) : Option (Bool × List Nat) :=
  if dd <+: s then some (false, s.drop 2)
  else if crlf <+: s then some (true, s.drop 2)
  else none

/-- Modelled from the spec: `consume_boundary` of the Delimiter Scanner
(`boundary.rs` is absent).  Must be called positioned exactly at a boundary
occurrence; consumes the marker (`--boundary` at stream start, CRLF then
`--boundary` between parts) and its trailing CRLF or `--`, returning `true`
when an ordinary boundary was consumed and `false` for the terminal marker. -/
def consume_boundary (B : List Nat) (first : Bool) (s : List Nat) :
    Option (Bool × List Nat) :=
  (expects (if first then dd ++ B else delim B) s).bind boundaryTail

/-- Modelled from the spec: the skip path of the Delimiter Scanner — discard
everything up to and including the next boundary delimiter, then consume the
boundary tail (spec §4.3 step 3: unread payload is discarded before the next
boundary is consumed). -/
def skipConsumeBoundary (B : List Nat) (s : List Nat) : Option (Bool × List Nat) :=
  (readUntil (delim B) s).bind fun p => boundaryTail p.2

/-- Marker bytes opening a `Content-Disposition` header up to the opening
quote of the `name` parameter. -/
def cdMark : List Nat := s2b "Content-Disposition: form-data; name=\""

/-- Marker bytes of an optional `filename` parameter up to its opening quote. -/
def fnMark : List Nat := s2b "; filename=\""

/-- Marker bytes of a `Content-Type` header. -/
def ctMark : List Nat := s2b "Content-Type: "

/-- Default content type of a file field with no `Content-Type` header
(spec §4.2). -/
def defaultCT : List Nat := s2b "text/plain"

/-- Modelled from the spec: parse the `Content-Disposition` line of a part
header block (`field.rs` is absent; spec §4.2): the required `name` parameter
and the optional `filename` parameter, whose presence marks a file field. -/
def parseCD (line : List Nat) : Option (List Nat × Option (List Nat)) :=
  (expects cdMark line).bind fun r =>
  (readUntil quoteB r).bind fun p =>
  if p.2 = [] then some (p.1, none)
  else
    (expects fnMark p.2).bind fun r3 =>
    (readUntil quoteB r3).bind fun q =>
    if q.2 = [] then some (p.1, some q.1) else none

/-- Modelled from the spec: parse the optional `Content-Type` header line and
the blank line terminating the header block (spec §4.2): either the blank
line comes immediately, or one `Content-Type: value` line precedes it. -/
def parseOptCT (s : List Nat) : Option (Option (List Nat) × List Nat) :=
  if crlf <+: s then some (none, s.drop 2)
  else
    (expects ctMark s).bind fun r =>
    (readUntil crlf r).bind fun p =>
    (expects crlf p.2).map fun r2 => (some p.1, r2)

/-- A parsed entry (`MultipartField`): a text field with its materialized
value, or a file field whose payload is streamed on demand (spec §3, §4.3). -/
inductive Entry
  | data (name value : List Nat)
  | file (name filename contentType : List Nat)
  deriving DecidableEq

/-- Modelled from the spec: classify the parsed part and advance (spec §4.3):
a part without `filename` is a text field whose value is absorbed immediately
(the payload window stops at, and does not consume, the next delimiter); a
part with `filename` is a file field whose payload is left for the caller. -/
def mkEntryAt (B name : List Nat) (ofn oct : Option (List Nat)) (s : List Nat) :
    Option (Entry × List Nat) :=
  match ofn with
  | none => (readUntil (delim B) s).map fun p => (Entry.data name p.1, delim B ++ p.2)
  | some fn => some (Entry.file name fn (oct.getD defaultCT), s)

/-- Modelled from the spec: parse one part positioned immediately after a
consumed ordinary boundary — header block, blank line, then classification
(spec §4.2, §4.3 step 2). -/
def parsePartAt (B : List Nat) (r : List Nat) : Option (Entry × List Nat) :=
  (readUntil crlf r).bind fun p =>
  (parseCD p.1).bind fun cd =>
  (parseOptCT p.2).bind fun ctr =>
  mkEntryAt B cd.1 cd.2 ctr.1 ctr.2

/-- Step shared by all of `read_entry`'s non-`Ended` phases: act on the
result of consuming a boundary. -/
def afterBoundary (m : Multipart) : Bool × List Nat → Option (Option Entry × Multipart)
  | (false, r) => some (none, ⟨m.boundary, r, Phase.ended⟩)
  | (true, r) =>
    (parsePartAt m.boundary r).map fun er =>
      (some er.1, ⟨m.boundary, er.2, Phase.inBody⟩)

/-- `Multipart::read_entry` (`src/server/mod.rs` lines 77-79), with the
entry state machine of `field.rs` modelled from the spec (§4.3): in `Ended`
return an explicit empty result; otherwise discard any unread payload up to
the next boundary (the scanner's skip path), consume the boundary, and
either end the stream or parse the following part's headers. -/
def read_entry (m : Multipart) : Option (Option Entry × Multipart) :=
  match m.phase with
  | Phase.ended => some (none, m)
  | Phase.start => (consume_boundary m.boundary true m.input).bind (afterBoundary m)
  | Phase.inBody => (skipConsumeBoundary m.boundary m.input).bind (afterBoundary m)

/-- `Multipart::foreach_entry` (`src/server/mod.rs` lines 93-104), with the
callback modelled as collecting the entries it is invoked on: loop on
`read_entry`, stopping with success on `Ok(None)` and with failure on the
first error.  The `Nat` is recursion fuel. -/
def foreachRun : Nat → Multipart → Option (List Entry × Bool)
  | 0, _ => none
  | n + 1, m =>
    match read_entry m with
    | none => some ([], false)
    | some (none, _) => some ([], true)
    | some (some e, m') => (foreachRun n m').map fun r => (e :: r.1, r.2)

/-- A logical multipart field, used to state the encode/parse round trip:
either a text field or a file field with a materialized payload. -/
inductive Field
  | data (name value : List Nat)
  | file (name filename contentType payload : List Nat)
  deriving DecidableEq

/-- The entry produced for a field (the file payload is streamed, not part of
the entry value itself). -/
def entryOf : Field → Entry
  | Field.data n v => Entry.data n v
  | Field.file n fn ct _ => Entry.file n fn ct

/-- Modelled from the spec: fully drain the live file entry's payload window
(it stops at the next boundary without consuming it, spec §3 and §4.1). -/
def drainPayload (m : Multipart) : Option (List Nat × Multipart) :=
  (readUntil (delim m.boundary) m.input).map fun p =>
    (p.1, ⟨m.boundary, delim m.boundary ++ p.2, m.phase⟩)

/-- Drive the state machine to the end, materializing every field — the
caller-side reading discipline of spec §4.3 with every file payload drained. -/
def readAllFields : Nat → Multipart → Option (List Field)
  | 0, _ => none
  | n + 1, m =>
    match read_entry m with
    | none => none
    | some (none, _) => some []
    | some (some (Entry.data nm v), m') =>
      (readAllFields n m').map (Field.data nm v :: ·)
    | some (some (Entry.file nm fn ct), m') =>
      (drainPayload m').bind fun pm =>
        (readAllFields n pm.2).map (Field.file nm fn ct pm.1 :: ·)

/-- Parse a complete body with the given boundary token. -/
def parse_multipart (B body : List Nat) : Option (List Field) :=
  readAllFields (body.length + 1) (with_body body B)

/-! ## The encoder (client side)

The client-side request builder is not in the source tree; the encoder below
is modelled from the wire format of spec §6. -/

/-- Modelled from the spec: the header block and payload of one part
(spec §6: `Header: value` lines, a blank line, then raw payload bytes). -/
def encodePart : Field → List Nat
  | Field.data n v => cdMark ++ n ++ quoteB ++ crlf ++ crlf ++ v
  | Field.file n fn ct p =>
    cdMark ++ n ++ quoteB ++ fnMark ++ fn ++ quoteB ++ crlf ++
      ctMark ++ ct ++ crlf ++ crlf ++ p

/-- Modelled from the spec: everything following the leading `--boundary` of
the encoded body: `--` for the terminal marker, or CRLF, a part, then the
next boundary (spec §6). -/
def encodeAfter (B : List Nat) : List Field → List Nat
  | [] => dd
  | f :: fs => crlf ++ encodePart f ++ (delim B ++ encodeAfter B fs)

/-- Modelled from the spec: a complete `multipart/form-data` body for fields
`F` with boundary token `B` (spec §6). -/
def encode (B : List Nat) (F : List Field) : List Nat :=
  dd ++ B ++ encodeAfter B F

/-! ## Well-formedness side conditions for the round trip -/

/-- A token that can live inside a quoted header parameter: no CR, LF or
double quote. -/
def cleanToken (l : List Nat) : Prop := CR ∉ l ∧ LF ∉ l ∧ QU ∉ l

instance (l : List Nat) : Decidable (cleanToken l) := by
  unfold cleanToken
  infer_instance

/-- A field whose encoding with boundary token `B` parses back: header tokens
are clean and the payload does not contain (or straddle into) the boundary
delimiter. -/
def wfField (B : List Nat) : Field → Prop
  | Field.data n v => cleanToken n ∧ straddleFree (delim B) v
  | Field.file n fn ct p =>
    cleanToken n ∧ cleanToken fn ∧ CR ∉ ct ∧ LF ∉ ct ∧
      straddleFree (delim B) p

instance (B : List Nat) (f : Field) : Decidable (wfField B f) :=
  match f with
  | Field.data n v =>
    (inferInstance : Decidable (cleanToken n ∧ straddleFree (delim B) v))
  | Field.file n fn ct p =>
    (inferInstance : Decidable (cleanToken n ∧ cleanToken fn ∧ CR ∉ ct ∧
      LF ∉ ct ∧ straddleFree (delim B) p))

def wfFields (B : List Nat) (F : List Field) : Prop := ∀ f ∈ F, wfField B f

instance (B : List Nat) (F : List Field) : Decidable (wfFields B F) :=
  List.decidableBAll (wfField B) F

/-! ## Helper lemmas about the scanning primitives on encoded input -/

theorem not_prefix_append_of_head_ne (p q y : List Nat) (a b : Nat)
    (hp : p.head? = some a) (hq : q.head? = some b) (hab : a ≠ b) :
    ¬ p <+: q ++ y := by
  intro h
  rcases h with ⟨t, ht⟩
  cases p with
  | nil => simp at hp
  | cons x xs =>
    cases q with
    | nil => simp at hq
    | cons z zs =>
      simp only [List.head?_cons, Option.some.injEq] at hp hq
      subst hp
      subst hq
      simp only [List.cons_append, List.cons.injEq] at ht
      exact hab ht.1

theorem delim_ne_nil (B : List Nat) : delim B ≠ [] := by
  simp [delim, crlf, dd]

theorem readUntil_delim (B x y : List Nat) (hx : straddleFree (delim B) x) :
    readUntil (delim B) (x ++ (delim B ++ y)) = some (x, y) := by
  rw [← List.append_assoc]
  exact readUntil_append (delim B) x y (delim_ne_nil B) hx

/-- QU-freedom gives exactly the straddle condition for the single-byte
quote delimiter. -/
theorem straddleFree_quote (n : List Nat) (h : QU ∉ n) : straddleFree quoteB n := by
  intro hinf
  apply h
  rw [← singleton_infix_iff_mem]
  simpa [quoteB] using hinf

theorem readUntil_quote (n y : List Nat) (h : QU ∉ n) :
    readUntil quoteB (n ++ (quoteB ++ y)) = some (n, y) := by
  rw [← List.append_assoc]
  exact readUntil_append quoteB n y (by simp [quoteB]) (straddleFree_quote n h)

/-- CR-freedom implies straddle-freedom for the CRLF delimiter. -/
theorem straddleFree_crlf (x : List Nat) (h : CR ∉ x) : straddleFree crlf x := by
  induction x with
  | nil =>
    intro hinf
    have hle := hinf.length_le
    simp [crlf] at hle
  | cons a t ih =>
    intro hinf
    rcases hinf with ⟨s, u, hsu⟩
    cases s with
    | nil =>
      simp only [List.nil_append] at hsu
      have hsu2 : crlf ++ u = a :: (t ++ crlf.dropLast) := by
        simpa [List.cons_append] using hsu
      have ha : a = CR := by
        have := congrArg List.head? hsu2
        simpa [crlf, CR] using this.symm
      exact h (ha ▸ List.mem_cons_self a t)
    | cons b s' =>
      have ht : crlf <:+: t ++ crlf.dropLast := by
        refine ⟨s', u, ?_⟩
        have := hsu
        simp only [List.cons_append, List.cons.injEq] at this
        exact this.2
      exact ih (fun hm => h (List.mem_cons_of_mem a hm)) ht

theorem readUntil_crlf (x y : List Nat) (h : CR ∉ x) :
    readUntil crlf (x ++ (crlf ++ y)) = some (x, y) := by
  rw [← List.append_assoc]
  exact readUntil_append crlf x y (by simp [crlf]) (straddleFree_crlf x h)

theorem boundaryTail_dd (y : List Nat) : boundaryTail (dd ++ y) = some (false, y) := by
  rw [boundaryTail, if_pos (List.prefix_append dd y)]
  rfl

theorem boundaryTail_crlf (y : List Nat) : boundaryTail (crlf ++ y) = some (true, y) := by
  rw [boundaryTail,
    if_neg (not_prefix_append_of_head_ne dd crlf y 45 13 (by decide) (by decide) (by decide)),
    if_pos (List.prefix_append crlf y)]
  rfl

/-! ## Round-trip of one part -/

theorem parseCD_data (n : List Nat) (h : QU ∉ n) :
    parseCD (cdMark ++ (n ++ quoteB)) = some (n, none) := by
  have hq : readUntil quoteB (n ++ quoteB) = some (n, []) := by
    simpa using readUntil_quote n [] h
  rw [parseCD, expects_append cdMark (n ++ quoteB)]
  simp [hq]

theorem parseCD_file (n fn : List Nat) (hn : QU ∉ n) (hfn : QU ∉ fn) :
    parseCD (cdMark ++ (n ++ (quoteB ++ (fnMark ++ (fn ++ quoteB))))) =
      some (n, some fn) := by
  have h1 : readUntil quoteB (n ++ (quoteB ++ (fnMark ++ (fn ++ quoteB)))) =
      some (n, fnMark ++ (fn ++ quoteB)) :=
    readUntil_quote n (fnMark ++ (fn ++ quoteB)) hn
  have h2 : readUntil quoteB (fn ++ quoteB) = some (fn, []) := by
    simpa using readUntil_quote fn [] hfn
  have hne : fnMark ++ (fn ++ quoteB) ≠ [] := by
    intro hc
    exact (by decide : fnMark ≠ []) (List.append_eq_nil.mp hc).1
  have hfm : expects fnMark (fnMark ++ (fn ++ quoteB)) = some (fn ++ quoteB) :=
    expects_append fnMark (fn ++ quoteB)
  rw [parseCD, expects_append cdMark (n ++ (quoteB ++ (fnMark ++ (fn ++ quoteB))))]
  simp [h1, h2, hne, hfm]

theorem parseOptCT_blank (y : List Nat) : parseOptCT (crlf ++ y) = some (none, y) := by
  rw [parseOptCT, if_pos (List.prefix_append crlf y)]
  rfl

theorem parseOptCT_ct (ct y : List Nat) (h : CR ∉ ct) :
    parseOptCT (ctMark ++ (ct ++ (crlf ++ (crlf ++ y)))) = some (some ct, y) := by
  have hnc : ¬ crlf <+: ctMark ++ (ct ++ (crlf ++ (crlf ++ y))) :=
    not_prefix_append_of_head_ne crlf ctMark _ 13 67 (by decide) (by decide) (by decide)
  rw [parseOptCT, if_neg hnc, expects_append]
  simp [readUntil_crlf ct (crlf ++ y) h, expects_append]

theorem mkEntryAt_data (B n v y : List Nat) (hv : straddleFree (delim B) v) :
    mkEntryAt B n none none (v ++ (delim B ++ y)) =
      some (Entry.data n v, delim B ++ y) := by
  rw [mkEntryAt, readUntil_delim B v y hv]
  rfl

theorem mkEntryAt_file (B n fn ct s : List Nat) :
    mkEntryAt B n (some fn) (some ct) s = some (Entry.file n fn ct, s) := rfl

/-- The input remaining after one part has been produced: for a text field
the window sits exactly at the next boundary; for a file field the payload
is still unread. -/
def partTail (B : List Nat) (f : Field) (FS : List Field) : List Nat :=
  match f with
  | Field.data _ _ => delim B ++ encodeAfter B FS
  | Field.file _ _ _ p => p ++ (delim B ++ encodeAfter B FS)

theorem parsePartAt_encode (B : List Nat) (f : Field) (FS : List Field)
    (hf : wfField B f) :
    parsePartAt B (encodePart f ++ (delim B ++ encodeAfter B FS)) =
      some (entryOf f, partTail B f FS) := by
  cases f with
  | data n v =>
    obtain ⟨⟨hcr, hlf, hqu⟩, hv⟩ := hf
    have hCD : CR ∉ cdMark ++ n ++ quoteB := by
      simp only [List.mem_append, not_or]
      exact ⟨⟨by decide, hcr⟩, by decide⟩
    rw [show encodePart (Field.data n v) ++ (delim B ++ encodeAfter B FS)
        = (cdMark ++ n ++ quoteB) ++
            (crlf ++ (crlf ++ (v ++ (delim B ++ encodeAfter B FS))))
      from by simp [encodePart, List.append_assoc]]
    rw [parsePartAt, readUntil_crlf (cdMark ++ n ++ quoteB) _ hCD]
    simp [parseCD_data n hqu, parseOptCT_blank,
      mkEntryAt_data B n v (encodeAfter B FS) hv, entryOf, partTail]
  | file n fn ct p =>
    obtain ⟨⟨hcr, hlf, hqu⟩, ⟨hfcr, hflf, hfqu⟩, hctcr, hctlf, hp⟩ := hf
    have hCD : CR ∉ cdMark ++ n ++ (quoteB ++ (fnMark ++ (fn ++ quoteB))) := by
      simp only [List.mem_append, not_or]
      exact ⟨⟨by decide, hcr⟩, by decide, by decide, hfcr, by decide⟩
    rw [show encodePart (Field.file n fn ct p) ++ (delim B ++ encodeAfter B FS)
        = (cdMark ++ n ++ (quoteB ++ (fnMark ++ (fn ++ quoteB)))) ++
            (crlf ++ (ctMark ++ (ct ++ (crlf ++
              (crlf ++ (p ++ (delim B ++ encodeAfter B FS)))))))
      from by simp [encodePart, List.append_assoc]]
    rw [parsePartAt, readUntil_crlf _ _ hCD]
    simp [parseCD_file n fn hqu hfqu, parseOptCT_ct ct _ hctcr,
      mkEntryAt_file, entryOf, partTail]

/-! ## Round-trip of the entry state machine -/

theorem skipConsume_encode (B X : List Nat) (f : Field) (FS : List Field)
    (hX : straddleFree (delim B) X) :
    skipConsumeBoundary B (X ++ (delim B ++ encodeAfter B (f :: FS))) =
      some (true, encodePart f ++ (delim B ++ encodeAfter B FS)) := by
  rw [skipConsumeBoundary, readUntil_delim B X _ hX]
  show boundaryTail (encodeAfter B (f :: FS)) = _
  rw [show encodeAfter B (f :: FS) =
      crlf ++ (encodePart f ++ (delim B ++ encodeAfter B FS))
    from by simp [encodeAfter, List.append_assoc]]
  exact boundaryTail_crlf _

theorem skipConsume_encode_end (B X : List Nat)
    (hX : straddleFree (delim B) X) :
    skipConsumeBoundary B (X ++ (delim B ++ encodeAfter B [])) =
      some (false, []) := by
  rw [skipConsumeBoundary, readUntil_delim B X _ hX]
  show boundaryTail (encodeAfter B []) = some (false, [])
  rw [show encodeAfter B [] = dd from rfl]
  decide

theorem read_entry_inBody_cons (B X : List Nat) (f : Field) (FS : List Field)
    (hX : straddleFree (delim B) X) (hf : wfField B f) :
    read_entry ⟨B, X ++ (delim B ++ encodeAfter B (f :: FS)), Phase.inBody⟩ =
      some (some (entryOf f), ⟨B, partTail B f FS, Phase.inBody⟩) := by
  show (skipConsumeBoundary B (X ++ (delim B ++ encodeAfter B (f :: FS)))).bind _ = _
  rw [skipConsume_encode B X f FS hX]
  show (parsePartAt B (encodePart f ++ (delim B ++ encodeAfter B FS))).map _ = _
  rw [parsePartAt_encode B f FS hf]
  rfl

theorem read_entry_inBody_end (B X : List Nat)
    (hX : straddleFree (delim B) X) :
    read_entry ⟨B, X ++ (delim B ++ encodeAfter B []), Phase.inBody⟩ =
      some (none, ⟨B, [], Phase.ended⟩) := by
  show (skipConsumeBoundary B (X ++ (delim B ++ encodeAfter B []))).bind _ = _
  rw [skipConsume_encode_end B X hX]
  rfl

theorem read_entry_start_end (B : List Nat) :
    read_entry (with_body (encode B []) B) = some (none, ⟨B, [], Phase.ended⟩) := by
  show (consume_boundary B true (dd ++ B ++ encodeAfter B [])).bind _ = _
  rw [consume_boundary]
  rw [show (if true then dd ++ B else delim B) = dd ++ B from rfl]
  rw [show dd ++ B ++ encodeAfter B [] = (dd ++ B) ++ encodeAfter B [] from rfl]
  rw [expects_append (dd ++ B) (encodeAfter B [])]
  rfl

theorem read_entry_start_cons (B : List Nat) (f : Field) (FS : List Field)
    (hf : wfField B f) :
    read_entry (with_body (encode B (f :: FS)) B) =
      some (some (entryOf f), ⟨B, partTail B f FS, Phase.inBody⟩) := by
  show (consume_boundary B true (dd ++ B ++ encodeAfter B (f :: FS))).bind _ = _
  rw [consume_boundary]
  rw [show (if true then dd ++ B else delim B) = dd ++ B from rfl]
  rw [show dd ++ B ++ encodeAfter B (f :: FS) = (dd ++ B) ++ encodeAfter B (f :: FS)
    from rfl]
  rw [expects_append (dd ++ B) (encodeAfter B (f :: FS))]
  show (boundaryTail (encodeAfter B (f :: FS))).bind _ = _
  rw [show encodeAfter B (f :: FS) =
      crlf ++ (encodePart f ++ (delim B ++ encodeAfter B FS))
    from by simp [encodeAfter, List.append_assoc]]
  rw [boundaryTail_crlf _]
  show (parsePartAt B (encodePart f ++ (delim B ++ encodeAfter B FS))).map _ = _
  rw [parsePartAt_encode B f FS hf]
  rfl

theorem wfFields_cons (B : List Nat) (f : Field) (FS : List Field)
    (hw : wfFields B (f :: FS)) : wfField B f ∧ wfFields B FS :=
  ⟨hw f (List.mem_cons_self f FS), fun g hg => hw g (List.mem_cons_of_mem f hg)⟩

theorem wfField_file_payload (B nm fn ct p : List Nat)
    (h : wfField B (Field.file nm fn ct p)) : straddleFree (delim B) p :=
  h.2.2.2.2

theorem drainPayload_encode (B p : List Nat) (FS : List Field) (ph : Phase)
    (hp : straddleFree (delim B) p) :
    drainPayload ⟨B, p ++ (delim B ++ encodeAfter B FS), ph⟩ =
      some (p, ⟨B, delim B ++ encodeAfter B FS, ph⟩) := by
  rw [drainPayload]
  show (readUntil (delim B) (p ++ (delim B ++ encodeAfter B FS))).map _ = _
  rw [readUntil_delim B p _ hp]
  rfl

theorem foreachRun_encode_inBody (B : List Nat) (F : List Field) :
    ∀ (n : Nat) (X : List Nat), F.length < n → straddleFree (delim B) X →
      wfFields B F →
      foreachRun n ⟨B, X ++ (delim B ++ encodeAfter B F), Phase.inBody⟩ =
        some (F.map entryOf, true) := by
  induction F with
  | nil =>
    intro n X hn hX _
    obtain ⟨m, rfl⟩ : ∃ m, n = m + 1 := ⟨n - 1, by omega⟩
    simp only [foreachRun, read_entry_inBody_end B X hX, List.map_nil]
  | cons f FS ih =>
    intro n X hn hX hw
    obtain ⟨m, rfl⟩ : ∃ m, n = m + 1 := ⟨n - 1, by omega⟩
    obtain ⟨hwf, hwFS⟩ := wfFields_cons B f FS hw
    have hm : FS.length < m := by
      simp only [List.length_cons] at hn
      omega
    simp only [foreachRun, read_entry_inBody_cons B X f FS hX hwf]
    cases f with
    | data nm v =>
      rw [show partTail B (Field.data nm v) FS = [] ++ (delim B ++ encodeAfter B FS)
        from by simp [partTail]]
      rw [ih m [] hm (straddleFree_nil _ (delim_ne_nil B)) hwFS]
      rfl
    | file nm fn ct p =>
      rw [show partTail B (Field.file nm fn ct p) FS =
          p ++ (delim B ++ encodeAfter B FS) from rfl]
      rw [ih m p hm (wfField_file_payload B nm fn ct p hwf) hwFS]
      rfl

theorem foreachRun_partTail (B : List Nat) (f : Field) (FS : List Field) (m : Nat)
    (hm : FS.length < m) (hwf : wfField B f) (hwFS : wfFields B FS) :
    foreachRun m ⟨B, partTail B f FS, Phase.inBody⟩ = some (FS.map entryOf, true) := by
  cases f with
  | data nm v =>
    rw [show partTail B (Field.data nm v) FS = [] ++ (delim B ++ encodeAfter B FS)
      from by simp [partTail]]
    exact foreachRun_encode_inBody B FS m [] hm
      (straddleFree_nil _ (delim_ne_nil B)) hwFS
  | file nm fn ct p =>
    rw [show partTail B (Field.file nm fn ct p) FS =
        p ++ (delim B ++ encodeAfter B FS) from rfl]
    exact foreachRun_encode_inBody B FS m p hm
      (wfField_file_payload B nm fn ct p hwf) hwFS

theorem foreachRun_encode (B : List Nat) (F : List Field) (n : Nat)
    (hn : F.length < n) (hw : wfFields B F) :
    foreachRun n (with_body (encode B F) B) = some (F.map entryOf, true) := by
  obtain ⟨m, rfl⟩ : ∃ m, n = m + 1 := ⟨n - 1, by omega⟩
  cases F with
  | nil =>
    simp only [foreachRun, read_entry_start_end B, List.map_nil]
  | cons f FS =>
    obtain ⟨hwf, hwFS⟩ := wfFields_cons B f FS hw
    have hm : FS.length < m := by
      simp only [List.length_cons] at hn
      omega
    simp only [foreachRun, read_entry_start_cons B f FS hwf]
    rw [foreachRun_partTail B f FS m hm hwf hwFS]
    rfl

theorem readAllFields_encode_inBody (B : List Nat) (F : List Field) :
    ∀ (n : Nat) (X : List Nat), F.length < n → straddleFree (delim B) X →
      wfFields B F →
      readAllFields n ⟨B, X ++ (delim B ++ encodeAfter B F), Phase.inBody⟩ =
        some F := by
  induction F with
  | nil =>
    intro n X hn hX _
    obtain ⟨m, rfl⟩ : ∃ m, n = m + 1 := ⟨n - 1, by omega⟩
    simp only [readAllFields, read_entry_inBody_end B X hX]
  | cons f FS ih =>
    intro n X hn hX hw
    obtain ⟨m, rfl⟩ : ∃ m, n = m + 1 := ⟨n - 1, by omega⟩
    obtain ⟨hwf, hwFS⟩ := wfFields_cons B f FS hw
    have hm : FS.length < m := by
      simp only [List.length_cons] at hn
      omega
    simp only [readAllFields, read_entry_inBody_cons B X f FS hX hwf]
    cases f with
    | data nm v =>
      rw [show partTail B (Field.data nm v) FS = [] ++ (delim B ++ encodeAfter B FS)
        from by simp [partTail]]
      show (readAllFields m ⟨B, [] ++ (delim B ++ encodeAfter B FS),
        Phase.inBody⟩).map _ = _
      rw [ih m [] hm (straddleFree_nil _ (delim_ne_nil B)) hwFS]
      rfl
    | file nm fn ct p =>
      rw [show partTail B (Field.file nm fn ct p) FS =
          p ++ (delim B ++ encodeAfter B FS) from rfl]
      show (drainPayload ⟨B, p ++ (delim B ++ encodeAfter B FS),
        Phase.inBody⟩).bind _ = _
      rw [drainPayload_encode B p FS Phase.inBody
        (wfField_file_payload B nm fn ct p hwf)]
      show (readAllFields m ⟨B, delim B ++ encodeAfter B FS, Phase.inBody⟩).map _ = _
      rw [show (delim B ++ encodeAfter B FS : List Nat) =
          [] ++ (delim B ++ encodeAfter B FS) from by simp]
      rw [ih m [] hm (straddleFree_nil _ (delim_ne_nil B)) hwFS]
      rfl

theorem readAllFields_encode (B : List Nat) (F : List Field) (n : Nat)
    (hn : F.length < n) (hw : wfFields B F) :
    readAllFields n (with_body (encode B F) B) = some F := by
  obtain ⟨m, rfl⟩ : ∃ m, n = m + 1 := ⟨n - 1, by omega⟩
  cases F with
  | nil =>
    simp only [readAllFields, read_entry_start_end B]
  | cons f FS =>
    obtain ⟨hwf, hwFS⟩ := wfFields_cons B f FS hw
    have hm : FS.length < m := by
      simp only [List.length_cons] at hn
      omega
    cases f with
    | data nm v =>
      simp only [readAllFields, read_entry_start_cons B (Field.data nm v) FS hwf,
        entryOf]
      rw [show partTail B (Field.data nm v) FS = [] ++ (delim B ++ encodeAfter B FS)
        from by simp [partTail]]
      rw [readAllFields_encode_inBody B FS m [] hm
        (straddleFree_nil _ (delim_ne_nil B)) hwFS]
      rfl
    | file nm fn ct p =>
      simp only [readAllFields, read_entry_start_cons B (Field.file nm fn ct p) FS hwf,
        entryOf]
      rw [show partTail B (Field.file nm fn ct p) FS =
          p ++ (delim B ++ encodeAfter B FS) from rfl]
      rw [drainPayload_encode B p FS Phase.inBody
        (wfField_file_payload B nm fn ct p hwf)]
      show (readAllFields m ⟨B, delim B ++ encodeAfter B FS, Phase.inBody⟩).map _ = _
      rw [show (delim B ++ encodeAfter B FS : List Nat) =
          [] ++ (delim B ++ encodeAfter B FS) from by simp]
      rw [readAllFields_encode_inBody B FS m [] hm
        (straddleFree_nil _ (delim_ne_nil B)) hwFS]
      rfl

theorem length_le_encodeAfter (B : List Nat) (F : List Field) :
    F.length ≤ (encodeAfter B F).length := by
  induction F with
  | nil => simp [encodeAfter]
  | cons f FS ih =>
    have h2 : crlf.length = 2 := rfl
    simp only [encodeAfter, List.length_append, List.length_cons]
    omega

/-- The round trip in its final form, under the well-formedness side
conditions. -/
theorem parse_encode_roundtrip (B : List Nat) (F : List Field)
    (hw : wfFields B F) : parse_multipart B (encode B F) = some F := by
  have hlen : F.length < (encode B F).length + 1 := by
    have h1 := length_le_encodeAfter B F
    have h2 : (encode B F).length =
        dd.length + B.length + (encodeAfter B F).length := by
      simp [encode, List.length_append]
      omega
    omega
  exact readAllFields_encode B F ((encode B F).length + 1) hlen hw

/-! ## `random_alphanumeric` (`src/lib.rs` lines 42-48)

The function samples `len` characters from `rand`'s `Alphanumeric`
distribution.  The thread RNG is modelled as a finite stream of raw 32-bit
outputs; `Alphanumeric` takes the top 6 bits of each output and rejects
values ≥ 62, indexing this character set on acceptance. -/

def GEN_ASCII_STR_CHARSET : List Char :=
  "ABCDEFGHIJKLMNOPQRSTUVWXYZabcdefghijklmnopqrstuvwxyz0123456789".toList

/-- One sample of the `Alphanumeric` distribution by rejection from the
stream of raw RNG outputs. -/
def sampleAlnum : List Nat → Option (Char × List Nat)
  | [] => none
  | v :: rest =>
    if (v % 4294967296) / 67108864 < 62 then
      some (GEN_ASCII_STR_CHARSET.getD ((v % 4294967296) / 67108864) 'A', rest)
    else sampleAlnum rest

/-- `random_alphanumeric`: sample `len` alphanumeric characters from the RNG
stream and collect them (`none` when the stream runs out of entropy). -/
def random_alphanumeric : List Nat → Nat → Option (List Char)
  | _, 0 => some []
  | stream, len + 1 =>
    (sampleAlnum stream).bind fun cr =>
      (random_alphanumeric cr.2 len).map (cr.1 :: ·)

theorem charset_alnum : ∀ k < 62, (GEN_ASCII_STR_CHARSET.getD k 'A').isAlphanum := by
  decide

theorem sampleAlnum_alnum : ∀ (stream : List Nat) (c : Char) (rest : List Nat),
    sampleAlnum stream = some (c, rest) → c.isAlphanum := by
  intro stream
  induction stream with
  | nil =>
    intro c rest h
    simp [sampleAlnum] at h
  | cons v t ih =>
    intro c rest h
    rw [sampleAlnum] at h
    by_cases hv : (v % 4294967296) / 67108864 < 62
    · rw [if_pos hv] at h
      have hc : GEN_ASCII_STR_CHARSET.getD ((v % 4294967296) / 67108864) 'A' = c := by
        simpa using congrArg (fun o => (o.map Prod.fst).getD 'A') h
      exact hc ▸ charset_alnum _ hv
    · rw [if_neg hv] at h
      exact ih c rest h

theorem random_alphanumeric_spec : ∀ (len : Nat) (stream : List Nat) (s : List Char),
    random_alphanumeric stream len = some s →
    s.length = len ∧ ∀ c ∈ s, c.isAlphanum := by
  intro len
  induction len with
  | zero =>
    intro stream s h
    rw [random_alphanumeric] at h
    obtain rfl : ([] : List Char) = s := by simpa using h
    simp
  | succ k ih =>
    intro stream s h
    rw [random_alphanumeric] at h
    cases hs : sampleAlnum stream with
    | none =>
      rw [hs] at h
      simp at h
    | some cr =>
      rw [hs] at h
      simp only [Option.some_bind] at h
      cases hr : random_alphanumeric cr.2 k with
      | none =>
        rw [hr] at h
        simp at h
      | some s' =>
        rw [hr] at h
        obtain rfl : cr.1 :: s' = s := by simpa using h
        obtain ⟨hl, hall⟩ := ih cr.2 s' hr
        refine ⟨by simp [hl], ?_⟩
        intro c hc
        rcases List.mem_cons.mp hc with rfl | hmem
        · exact sampleAlnum_alnum stream cr.1 cr.2 (by rw [hs])
        · exact hall c hmem

/-! ## Characterization of the adapters' `multipart_boundary` -/

theorem hyper_none_method (r : HyperRequest) (hm : r.method ≠ Method.post) :
    hyper_multipart_boundary r = none := by
  rw [hyper_multipart_boundary, if_pos hm]

theorem hyper_none_noct (r : HyperRequest) (h : r.contentType = none) :
    hyper_multipart_boundary r = none := by
  by_cases hm : r.method = Method.post
  · rw [hyper_multipart_boundary, if_neg (by simp [hm]), h]
    rfl
  · exact hyper_none_method r hm

theorem hyper_none_wrongmime (r : HyperRequest) (mime : MimeT)
    (hct : r.contentType = some mime)
    (hne : mime.top ≠ TopLevel.multipart ∨ mime.sub ≠ SubLevel.formData) :
    hyper_multipart_boundary r = none := by
  by_cases hm : r.method = Method.post
  · rw [hyper_multipart_boundary, if_neg (by simp [hm]), hct]
    obtain ⟨t, s, ps⟩ := mime
    cases t <;> cases s <;>
      first
        | rfl
        | (exfalso
           rcases hne with h1 | h1 <;> exact h1 rfl)
  · exact hyper_none_method r hm

theorem hyper_some (r : HyperRequest) (mime : MimeT) (v : List Nat)
    (hm : r.method = Method.post) (hct : r.contentType = some mime)
    (htop : mime.top = TopLevel.multipart) (hsub : mime.sub = SubLevel.formData)
    (hfind : (mime.params.find? fun p =>
        match p.1 with
        | MimeAttr.boundary => true
        | _ => false) = some (MimeAttr.boundary, MimeValue.ext v)) :
    hyper_multipart_boundary r = some v := by
  rw [hyper_multipart_boundary, if_neg (by simp [hm]), hct]
  obtain ⟨t, s, ps⟩ := mime
  have ht : t = TopLevel.multipart := htop
  have hs : s = SubLevel.formData := hsub
  subst ht
  subst hs
  show (ps.find? _).bind _ = some v
  rw [hfind]
  rfl

theorem tiny_method_irrelevant (tr : TinyRequest) (m2 : Method) :
    tiny_multipart_boundary ⟨m2, tr.headers⟩ = tiny_multipart_boundary tr := rfl

theorem tiny_none_noheader (tr : TinyRequest)
    (hall : ∀ hh ∈ tr.headers, eqCI hh.field contentTypeName = false) :
    tiny_multipart_boundary tr = none := by
  rw [tiny_multipart_boundary]
  rw [List.find?_eq_none.mpr (by simpa using hall)]
  rfl

theorem tiny_none_noboundary (tr : TinyRequest) (h : TinyHeader)
    (hfind : (tr.headers.find? fun hh => eqCI hh.field contentTypeName) = some h)
    (hnb : ¬ boundaryEq <:+: h.value) :
    tiny_multipart_boundary tr = none := by
  rw [tiny_multipart_boundary, hfind]
  show (findSub boundaryEq h.value).bind _ = none
  rw [findSub_none boundaryEq h.value hnb]
  rfl

theorem tiny_extract_nosemi (tr : TinyRequest) (h : TinyHeader) (x c : List Nat)
    (hfind : (tr.headers.find? fun hh => eqCI hh.field contentTypeName) = some h)
    (hval : h.value = x ++ (boundaryEq ++ c))
    (hx : straddleFree boundaryEq x) (hc : SEMI ∉ c) :
    tiny_multipart_boundary tr = some c := by
  rw [tiny_multipart_boundary, hfind]
  show (findSub boundaryEq h.value).bind _ = some c
  rw [hval]
  have hfs : findSub boundaryEq (x ++ (boundaryEq ++ c)) = some x.length := by
    have := findSub_append boundaryEq x c (by decide) hx
    simpa [List.append_assoc] using this
  rw [hfs]
  show some _ = some c
  have hstart : x.length + boundaryEq.length = (x ++ boundaryEq).length := by
    simp
  have hdrop : (x ++ (boundaryEq ++ c)).drop (x.length + boundaryEq.length) = c := by
    rw [hstart, ← List.append_assoc, List.drop_left]
  have hsemi : findSub [SEMI] ((x ++ (boundaryEq ++ c)).drop
      (x.length + boundaryEq.length)) = none := by
    rw [hdrop]
    exact findSub_none [SEMI] c
      (fun hinf => hc ((singleton_infix_iff_mem SEMI c).mp hinf))
  rw [hsemi]
  rw [List.take_length, hdrop]

theorem tiny_extract_semi (tr : TinyRequest) (h : TinyHeader) (x c d : List Nat)
    (hfind : (tr.headers.find? fun hh => eqCI hh.field contentTypeName) = some h)
    (hval : h.value = x ++ (boundaryEq ++ (c ++ (SEMI :: d))))
    (hx : straddleFree boundaryEq x) (hc : SEMI ∉ c) :
    tiny_multipart_boundary tr = some c := by
  rw [tiny_multipart_boundary, hfind]
  show (findSub boundaryEq h.value).bind _ = some c
  rw [hval]
  have hfs : findSub boundaryEq (x ++ (boundaryEq ++ (c ++ (SEMI :: d)))) =
      some x.length := by
    have := findSub_append boundaryEq x (c ++ (SEMI :: d)) (by decide) hx
    simpa [List.append_assoc] using this
  rw [hfs]
  show some _ = some c
  have hstart : x.length + boundaryEq.length = (x ++ boundaryEq).length := by
    simp
  have hdrop : (x ++ (boundaryEq ++ (c ++ (SEMI :: d)))).drop
      (x.length + boundaryEq.length) = c ++ (SEMI :: d) := by
    rw [hstart, show x ++ (boundaryEq ++ (c ++ (SEMI :: d)))
        = (x ++ boundaryEq) ++ (c ++ (SEMI :: d)) from by simp [List.append_assoc]]
    rw [List.drop_left]
  have hsemi : findSub [SEMI] ((x ++ (boundaryEq ++ (c ++ (SEMI :: d)))).drop
      (x.length + boundaryEq.length)) = some c.length := by
    rw [hdrop]
    have := findSub_append [SEMI] c d (by decide)
      (by simpa [straddleFree] using
        (fun hinf => hc ((singleton_infix_iff_mem SEMI c).mp hinf)))
    simpa using this
  rw [hsemi]
  have htake : (x ++ (boundaryEq ++ (c ++ (SEMI :: d)))).take
      (x.length + boundaryEq.length + c.length) = (x ++ boundaryEq) ++ c := by
    rw [show x ++ (boundaryEq ++ (c ++ (SEMI :: d)))
        = ((x ++ boundaryEq) ++ c) ++ (SEMI :: d) from by simp [List.append_assoc]]
    rw [show x.length + boundaryEq.length + c.length
        = ((x ++ boundaryEq) ++ c).length from by simp; omega]
    rw [List.take_left]
  rw [htake]
  rw [show x.length + boundaryEq.length = (x ++ boundaryEq).length from by simp]
  rw [List.drop_left]

/-! ## The claims -/

/-- C1, counterexample: the claim says `multipart_boundary` returns none for
every adapter whenever the request is not a multipart/form-data POST.  The
tiny_http adapter violates this: a GET request whose Content-Type is
`text/plain; boundary=abc` (wrong method and not multipart/form-data) still
yields `some "abc"`, because the adapter only greps the header value for
`boundary=`. -/
theorem C1_counterexample :
    (TinyRequest.mk Method.get
      [TinyHeader.mk (s2b "Content-Type") (s2b "text/plain; boundary=abc")]).method
        ≠ Method.post ∧
    tiny_multipart_boundary
      (TinyRequest.mk Method.get
        [TinyHeader.mk (s2b "Content-Type") (s2b "text/plain; boundary=abc")]) =
      some (s2b "abc") := by
  constructor
  · decide
  · decide

/-- C1 (amended): the hyper adapters return the boundary parameter exactly
for POST requests whose Content-Type is multipart/form-data, and none for a
wrong method, a missing Content-Type, or a non-multipart/form-data type; the
tiny_http adapter ignores the request method (and the media type): it
returns the substring of the Content-Type value after `boundary=` up to the
next `;` or the end. -/
theorem C1_theorem (r : HyperRequest) (mime : MimeT) (v : List Nat)
    (tr : TinyRequest) (h : TinyHeader) (x c : List Nat) (m2 : Method) :
    (r.method ≠ Method.post → hyper_multipart_boundary r = none) ∧
    (r.contentType = none → hyper_multipart_boundary r = none) ∧
    (r.contentType = some mime →
      (mime.top ≠ TopLevel.multipart ∨ mime.sub ≠ SubLevel.formData) →
      hyper_multipart_boundary r = none) ∧
    (r.method = Method.post → r.contentType = some mime →
      mime.top = TopLevel.multipart → mime.sub = SubLevel.formData →
      (mime.params.find? fun p =>
        match p.1 with
        | MimeAttr.boundary => true
        | _ => false) = some (MimeAttr.boundary, MimeValue.ext v) →
      hyper_multipart_boundary r = some v) ∧
    (tiny_multipart_boundary ⟨m2, tr.headers⟩ = tiny_multipart_boundary tr) ∧
    ((tr.headers.find? fun hh => eqCI hh.field contentTypeName) = some h →
      h.value = x ++ (boundaryEq ++ c) →
      straddleFree boundaryEq x → SEMI ∉ c →
      tiny_multipart_boundary tr = some c) :=
  ⟨hyper_none_method r, hyper_none_noct r,
   fun hct hne => hyper_none_wrongmime r mime hct hne,
   fun hm hct htop hsub hfind => hyper_some r mime v hm hct htop hsub hfind,
   tiny_method_irrelevant tr m2,
   fun hfind hval hx hc => tiny_extract_nosemi tr h x c hfind hval hx hc⟩

/-- C1, witness: a multipart/form-data POST yields its boundary through the
hyper adapter, and a tiny_http Content-Type header yields the token after
`boundary=`. -/
theorem C1_witness :
    hyper_multipart_boundary
      ⟨Method.post, some ⟨TopLevel.multipart, SubLevel.formData,
        [(MimeAttr.boundary, MimeValue.ext (s2b "xyz"))]⟩⟩ = some (s2b "xyz") ∧
    tiny_multipart_boundary
      ⟨Method.post, [⟨s2b "Content-Type",
        s2b "multipart/form-data; boundary=xyz"⟩]⟩ = some (s2b "xyz") :=
  by
  constructor
  · exact (C1_theorem
      ⟨Method.post, some ⟨TopLevel.multipart, SubLevel.formData,
        [(MimeAttr.boundary, MimeValue.ext (s2b "xyz"))]⟩⟩
      ⟨TopLevel.multipart, SubLevel.formData,
        [(MimeAttr.boundary, MimeValue.ext (s2b "xyz"))]⟩ (s2b "xyz")
      ⟨Method.post, []⟩ ⟨[], []⟩ [] [] Method.get).2.2.2.1
      rfl rfl rfl rfl (by decide)
  · exact (C1_theorem ⟨Method.post, none⟩ ⟨TopLevel.text, SubLevel.plain, []⟩ []
      ⟨Method.post, [⟨s2b "Content-Type",
        s2b "multipart/form-data; boundary=xyz"⟩]⟩
      ⟨s2b "Content-Type", s2b "multipart/form-data; boundary=xyz"⟩
      (s2b "multipart/form-data; ") (s2b "xyz") Method.get).2.2.2.2.2
      (by decide) (by decide) (by decide) (by decide)

/-- C2: `Multipart::from_request` returns `Ok` with the wrapped body exactly
when the request reports a multipart boundary, and otherwise returns `Err`
carrying back the original request unchanged (the body is not consumed). -/
theorem C2_theorem (req : ReqModel) :
    (∀ b, req.mb = some b →
      from_request req = Except.ok (with_body req.bodyBytes b)) ∧
    (req.mb = none → from_request req = Except.error req) := by
  constructor
  · intro b hb
    simp [from_request, hb]
  · intro hb
    simp [from_request, hb]

/-- C2, witness: one multipart request wrapped, one non-multipart request
handed back unchanged. -/
theorem C2_witness :
    from_request ⟨some (s2b "bnd"), s2b "BODY"⟩ =
      Except.ok (with_body (s2b "BODY") (s2b "bnd")) ∧
    from_request ⟨none, s2b "BODY"⟩ = Except.error ⟨none, s2b "BODY"⟩ :=
  ⟨(C2_theorem ⟨some (s2b "bnd"), s2b "BODY"⟩).1 (s2b "bnd") rfl,
   (C2_theorem ⟨none, s2b "BODY"⟩).2 rfl⟩

/-- C3: abandoning a file payload after reading any number of bytes (the
unread remainder being `p1.drop k`, with `k = 0` for zero bytes read), the
next `read_entry` discards the remainder via the scanner's skip path and
yields exactly the next entry, and the whole remaining stream still
materializes to exactly the remaining fields — no leaked bytes, no lost
boundary. -/
theorem C3_theorem (B p1 : List Nat) (k : Nat) (f : Field) (FS : List Field)
    (n : Nat) (hp1 : straddleFree (delim B) p1) (hf : wfField B f)
    (hFS : wfFields B FS) (hn : FS.length + 1 < n) :
    read_entry ⟨B, p1.drop k ++ (delim B ++ encodeAfter B (f :: FS)),
      Phase.inBody⟩ =
      some (some (entryOf f), ⟨B, partTail B f FS, Phase.inBody⟩) ∧
    readAllFields n ⟨B, p1.drop k ++ (delim B ++ encodeAfter B (f :: FS)),
      Phase.inBody⟩ = some (f :: FS) := by
  have hX := straddleFree_drop (delim B) p1 k hp1
  constructor
  · exact read_entry_inBody_cons B (p1.drop k) f FS hX hf
  · exact readAllFields_encode_inBody B (f :: FS) n (p1.drop k)
      (by simp only [List.length_cons]; omega) hX
      (List.forall_mem_cons.mpr ⟨hf, hFS⟩)

/-- C3, witness: a payload abandoned after 3 of its 8 bytes were read, with
one text field following. -/
theorem C3_witness :
    read_entry ⟨s2b "b", (s2b "junkdata").drop 3 ++ (delim (s2b "b") ++
      encodeAfter (s2b "b") [Field.data (s2b "n") (s2b "v")]), Phase.inBody⟩ =
      some (some (entryOf (Field.data (s2b "n") (s2b "v"))),
        ⟨s2b "b", partTail (s2b "b") (Field.data (s2b "n") (s2b "v")) [],
          Phase.inBody⟩) ∧
    readAllFields 2 ⟨s2b "b", (s2b "junkdata").drop 3 ++ (delim (s2b "b") ++
      encodeAfter (s2b "b") [Field.data (s2b "n") (s2b "v")]), Phase.inBody⟩ =
      some [Field.data (s2b "n") (s2b "v")] :=
  C3_theorem (s2b "b") (s2b "junkdata") 3 (Field.data (s2b "n") (s2b "v")) [] 2
    (by decide) (by decide) (by decide) (by decide)

/-- C4: once the state machine has reached `Ended`, every further
`read_entry` returns the explicit empty result `Ok(None)`, never an error,
and the state (hence the machine) does not change. -/
theorem C4_theorem (m : Multipart) (h : m.phase = Phase.ended) :
    read_entry m = some (none, m) := by
  obtain ⟨b, i, ph⟩ := m
  simp only at h
  subst h
  rfl

/-- C4, witness: a concrete ended parser. -/
theorem C4_witness :
    read_entry ⟨s2b "b", s2b "junk", Phase.ended⟩ =
      some (none, ⟨s2b "b", s2b "junk", Phase.ended⟩) :=
  C4_theorem ⟨s2b "b", s2b "junk", Phase.ended⟩ rfl

/-- C5: `foreach_entry` calls the callback once per entry in stream order
and returns success exactly when the stream ends cleanly; an erroring
`read_entry` makes it return that error immediately with the callback not
invoked at or after the failure; a successful `read_entry` prepends exactly
that entry before the rest of the loop. -/
theorem C5_theorem (B : List Nat) (F : List Field) (n : Nat) (m : Multipart)
    (e : Entry) (m2 : Multipart) :
    (F.length < n → wfFields B F →
      foreachRun n (with_body (encode B F) B) = some (F.map entryOf, true)) ∧
    (read_entry m = none → foreachRun (n + 1) m = some ([], false)) ∧
    (read_entry m = some (some e, m2) →
      foreachRun (n + 1) m = (foreachRun n m2).map fun r => (e :: r.1, r.2)) := by
  refine ⟨fun hn hw => foreachRun_encode B F n hn hw, fun h => ?_, fun h => ?_⟩
  · rw [foreachRun, h]
  · rw [foreachRun, h]

/-- C5, witness: a one-field stream visited fully with success, and an
immediately erroring stream reported as the error with no entries visited. -/
theorem C5_witness :
    foreachRun 2 (with_body (encode (s2b "b")
      [Field.data (s2b "n") (s2b "v")]) (s2b "b")) =
      some ([Field.data (s2b "n") (s2b "v")].map entryOf, true) ∧
    foreachRun 1 ⟨[], [], Phase.start⟩ = some ([], false) :=
  ⟨(C5_theorem (s2b "b") [Field.data (s2b "n") (s2b "v")] 2
      ⟨[], [], Phase.start⟩ (Entry.data [] []) ⟨[], [], Phase.start⟩).1
      (by decide) (by decide),
   (C5_theorem (s2b "b") [Field.data (s2b "n") (s2b "v")] 0
      ⟨[], [], Phase.start⟩ (Entry.data [] []) ⟨[], [], Phase.start⟩).2.1
      (by decide)⟩

/-- C6: positioned exactly at a boundary occurrence (the first boundary at
stream start, or a CRLF-prefixed one between parts), `consume_boundary`
advances past the marker and its trailing CRLF or `--` terminator, returning
`true` exactly for an ordinary boundary and `false` exactly for the terminal
marker. -/
theorem C6_theorem (B y : List Nat) :
    consume_boundary B false (delim B ++ (crlf ++ y)) = some (true, y) ∧
    consume_boundary B false (delim B ++ (dd ++ y)) = some (false, y) ∧
    consume_boundary B true ((dd ++ B) ++ (crlf ++ y)) = some (true, y) ∧
    consume_boundary B true ((dd ++ B) ++ (dd ++ y)) = some (false, y) := by
  refine ⟨?_, ?_, ?_, ?_⟩
  · rw [consume_boundary,
      show (if false then dd ++ B else delim B) = delim B from rfl,
      expects_append (delim B) (crlf ++ y)]
    exact boundaryTail_crlf y
  · rw [consume_boundary,
      show (if false then dd ++ B else delim B) = delim B from rfl,
      expects_append (delim B) (dd ++ y)]
    exact boundaryTail_dd y
  · rw [consume_boundary,
      show (if true then dd ++ B else delim B) = dd ++ B from rfl,
      expects_append (dd ++ B) (crlf ++ y)]
    exact boundaryTail_crlf y
  · rw [consume_boundary,
      show (if true then dd ++ B else delim B) = dd ++ B from rfl,
      expects_append (dd ++ B) (dd ++ y)]
    exact boundaryTail_dd y

/-- C7, counterexample: encode-then-parse is not the identity for arbitrary
fields — a text field whose value contains the boundary delimiter sequence
(here the value is the bytes of `\r\n--b--`) is cut short by the scanner, so
parsing does not reproduce the field. -/
theorem C7_counterexample :
    parse_multipart (s2b "b")
      (encode (s2b "b") [Field.data (s2b "n") [13, 10, 45, 45, 98, 45, 45]]) ≠
      some [Field.data (s2b "n") [13, 10, 45, 45, 98, 45, 45]] := by
  decide

/-- C7 (amended): for every boundary token B and every sequence of
well-formed fields (header tokens free of CR, LF and `"`; payloads not
containing or straddling into the delimiter `CRLF--B`), encoding with B and
parsing with the same B reproduces the fields exactly — same order,
byte-identical payloads. -/
theorem C7_theorem (B : List Nat) (F : List Field) (hw : wfFields B F) :
    parse_multipart B (encode B F) = some F :=
  parse_encode_roundtrip B F hw

/-- C7, witness: a text field and a file field survive the round trip. -/
theorem C7_witness :
    parse_multipart (s2b "bnd") (encode (s2b "bnd")
      [Field.data (s2b "k") (s2b "hello"),
       Field.file (s2b "f") (s2b "a.txt") (s2b "text/plain") (s2b "PAYLOAD")]) =
      some [Field.data (s2b "k") (s2b "hello"),
        Field.file (s2b "f") (s2b "a.txt") (s2b "text/plain") (s2b "PAYLOAD")] :=
  C7_theorem (s2b "bnd")
    [Field.data (s2b "k") (s2b "hello"),
     Field.file (s2b "f") (s2b "a.txt") (s2b "text/plain") (s2b "PAYLOAD")]
    (by decide)

/-- C8: whenever `random_alphanumeric` produces a string from the RNG
stream, that string has exactly the requested length and consists solely of
ASCII alphanumeric characters. -/
theorem C8_theorem (len : Nat) (stream : List Nat) (s : List Char)
    (h : random_alphanumeric stream len = some s) :
    s.length = len ∧ ∀ c ∈ s, c.isAlphanum :=
  random_alphanumeric_spec len stream s h

/-- C8, witness: three samples from a zero stream give `"AAA"`. -/
theorem C8_witness :
    (['A', 'A', 'A'] : List Char).length = 3 ∧
      ∀ c ∈ (['A', 'A', 'A'] : List Char), c.isAlphanum :=
  C8_theorem 3 [0, 0, 0] ['A', 'A', 'A'] (by decide)

/-- C9: the tiny_http adapter returns exactly the characters after the first
`boundary=` in the Content-Type value up to (not including) the next `;` or,
failing one, the end of the value (quotes are not stripped, being ordinary
characters of the slice); it returns none when no header field equals
Content-Type case-insensitively, or when the value has no `boundary=`. -/
theorem C9_theorem (tr : TinyRequest) (h : TinyHeader) (x c d : List Nat) :
    ((tr.headers.find? fun hh => eqCI hh.field contentTypeName) = some h →
      h.value = x ++ (boundaryEq ++ (c ++ (SEMI :: d))) →
      straddleFree boundaryEq x → SEMI ∉ c →
      tiny_multipart_boundary tr = some c) ∧
    ((tr.headers.find? fun hh => eqCI hh.field contentTypeName) = some h →
      h.value = x ++ (boundaryEq ++ c) →
      straddleFree boundaryEq x → SEMI ∉ c →
      tiny_multipart_boundary tr = some c) ∧
    ((∀ hh ∈ tr.headers, eqCI hh.field contentTypeName = false) →
      tiny_multipart_boundary tr = none) ∧
    ((tr.headers.find? fun hh => eqCI hh.field contentTypeName) = some h →
      ¬ boundaryEq <:+: h.value → tiny_multipart_boundary tr = none) :=
  ⟨fun hfind hval hx hc => tiny_extract_semi tr h x c d hfind hval hx hc,
   fun hfind hval hx hc => tiny_extract_nosemi tr h x c hfind hval hx hc,
   tiny_none_noheader tr,
   fun hfind hnb => tiny_none_noboundary tr h hfind hnb⟩

/-- C9, witness: a quoted boundary value is returned with its quotes, cut at
the following `;`; a request without headers yields none. -/
theorem C9_witness :
    tiny_multipart_boundary ⟨Method.post, [⟨s2b "content-type",
      s2b "multipart/form-data; boundary=\"q\"; charset=utf-8"⟩]⟩ =
      some (s2b "\"q\"") ∧
    tiny_multipart_boundary ⟨Method.post, ([] : List TinyHeader)⟩ = none :=
  ⟨(C9_theorem ⟨Method.post, [⟨s2b "content-type",
      s2b "multipart/form-data; boundary=\"q\"; charset=utf-8"⟩]⟩
      ⟨s2b "content-type",
        s2b "multipart/form-data; boundary=\"q\"; charset=utf-8"⟩
      (s2b "multipart/form-data; ") (s2b "\"q\"") (s2b " charset=utf-8")).1
      (by decide) (by decide) (by decide) (by decide),
   (C9_theorem ⟨Method.post, ([] : List TinyHeader)⟩ ⟨[], []⟩ [] [] []).2.2.1
      (by intro hh hmem; simp at hmem)⟩

/-- C10: the hyper `HttpRequest` implementation for a request taken by value
and the one for a mutable reference compute identical `multipart_boundary`
results on every request. -/
theorem C10_theorem (r : HyperRequest) :
    hyper_multipart_boundary r = hyper_multipart_boundary_mut r := rfl

end Mpart
